import Mathlib

/-!
Shallow embedding of `helpers/ml_utils.py` (evaluation metrics, preprocessing
transformers and a model-loading helper) together with proofs about it.

Numeric values are embedded as exact rationals (`ℚ`), tables as ordered lists
of named columns, fallible code as `Except String`, and the filesystem touched
by `load_model` as an explicit structure of file and directory paths.
`np.argsort`-based reordering is embedded as a stable sort on the columns of
the stacked array.
-/

namespace MlUtils

/-- Embedding of `int((p/100)*len(a1))` in `metrics`.  Python's `int` truncates
toward zero; on the domain `p > 0` used throughout this file truncation
coincides with `Int.floor`, and `Int.toNat` records that the result is used as
a count. -/
def numOnes (p : ℚ) (n : ℕ) : ℕ := (⌊p / 100 * (n : ℚ)⌋).toNat

/-- Embedding of the synthetic label vector
`np.concatenate([np.ones(num_ones), np.zeros(num_zeros)])`. -/
def targetingVector (nOnes nZeros : ℕ) : List ℚ :=
  List.replicate nOnes 1 ++ List.replicate nZeros 0

/-- Number of positions where the true vector holds `i` and the predicted
vector holds `j`; one entry of the confusion matrix. -/
def countPair (yt yp : List ℚ) (i j : ℚ) : ℕ :=
  (yt.zip yp).countP (fun q => decide (q.1 = i ∧ q.2 = j))

/-- The sorted list of distinct labels occurring in either argument, as used by
`sklearn.metrics.confusion_matrix` to index the matrix. -/
def confusionLabels (yt yp : List ℚ) : List ℚ :=
  ((yt ++ yp).dedup).insertionSort (· ≤ ·)

/-- Row-major entries of `confusion_matrix(yt, yp).ravel()`: one count for each
ordered pair of labels. -/
def confusionRavel (yt yp : List ℚ) : List ℕ :=
  (confusionLabels yt yp).flatMap
    (fun i => (confusionLabels yt yp).map (fun j => countPair yt yp i j))

/-- The two binary vectors built inside `metrics`: the stacked array is sorted
by its first row (`a[:, a[0, :].argsort()]`), the first row is overwritten with
the targeting vector, the array is then sorted by its second row and the second
row overwritten with the targeting vector.  `argsort` is embedded as a stable
sort on the columns. -/
def metricsVectors (a1 a2 : List ℚ) (p : ℚ) : List ℚ × List ℚ :=
  let n := a1.length
  let t := targetingVector (numOnes p n) (n - numOnes p n)
  let a := a1.zip a2
  let s1 := a.insertionSort (fun u v => u.1 ≤ v.1)
  let a' := t.zip (s1.map Prod.snd)
  let s2 := a'.insertionSort (fun u v => u.2 ≤ v.2)
  (s2.map Prod.fst, t)

/-- Message of the `ValueError` raised by `metrics` for `p = 0` or `p = 100`. -/
def percentageErrorMsg : String :=
  "Percentage targeting must be between 0 and 100 (exclusive)."

/-- Message of the `ValueError` raised by the four-way unpack
`tn, fp, fn, tp = confusion_matrix(...).ravel()` when the raveled matrix does
not have exactly four entries. -/
def unpackErrorMsg : String := "not enough values to unpack (expected 4)"

/-- The four-way unpack `tn, fp, fn, tp = ...ravel()`, which raises unless the
raveled confusion matrix has exactly four entries. -/
def unpack4 (R : List ℕ) : Except String (ℕ × ℕ × ℕ × ℕ) :=
  match R with
  | [tn, fp, fn, tp] => .ok (tn, fp, fn, tp)
  | _ => .error unpackErrorMsg

/-- The confusion counts `tn, fp, fn, tp` computed inside `metrics`, including
the `p` validation and the failure of the four-way unpack when the confusion
matrix is not 2×2. -/
def metricsCounts (a1 a2 : List ℚ) (p : ℚ) : Except String (ℕ × ℕ × ℕ × ℕ) :=
  if p = 0 ∨ p = 100 then .error percentageErrorMsg
  else unpack4 (confusionRavel (metricsVectors a1 a2 p).1 (metricsVectors a1 a2 p).2)

/-- Embedding of `metrics`: accuracy, precision, recall, true positive rate and
false positive rate at percentile cutoff `p`. -/
def metrics (a1 a2 : List ℚ) (p : ℚ) : Except String (ℚ × ℚ × ℚ × ℚ × ℚ) := do
  let (tn, fp, fn, tp) ← metricsCounts a1 a2 p
  let accuracy : ℚ := ((tp : ℚ) + (tn : ℚ)) / ((tp : ℚ) + (tn : ℚ) + (fp : ℚ) + (fn : ℚ))
  let precision : ℚ := (tp : ℚ) / ((tp : ℚ) + (fp : ℚ))
  let recl : ℚ := (tp : ℚ) / ((tp : ℚ) + (fn : ℚ))
  let tpr : ℚ := recl
  let fpr : ℚ := (fp : ℚ) / ((fp : ℚ) + (tn : ℚ))
  pure (accuracy, precision, recl, tpr, fpr)

theorem targetingVector_length (a b : ℕ) : (targetingVector a b).length = a + b := by
  simp [targetingVector]

theorem mem_targetingVector {x : ℚ} {a b : ℕ} (h : x ∈ targetingVector a b) :
    x = 0 ∨ x = 1 := by
  rcases List.mem_append.mp h with h' | h' <;>
    simp [List.eq_of_mem_replicate h']

theorem numOnes_le {p : ℚ} {n : ℕ} (hp : p ≤ 100) : numOnes p n ≤ n := by
  have hq : p / 100 * (n : ℚ) ≤ (n : ℚ) := by
    have h1 : p / 100 ≤ 1 := by linarith [(div_le_one (by norm_num : (0:ℚ) < 100)).mpr hp]
    nlinarith [Nat.cast_nonneg (α := ℚ) n]
  have hfl : ⌊p / 100 * (n : ℚ)⌋ ≤ (n : ℤ) := by
    have := Int.floor_le_floor hq
    rwa [Int.floor_natCast] at this
  simpa [numOnes] using Int.toNat_le.mpr hfl

theorem numOnes_lt {p : ℚ} {n : ℕ} (hp : p < 100) (hn : 0 < n) : numOnes p n < n := by
  have hq : p / 100 * (n : ℚ) < (n : ℚ) := by
    have hn' : (0 : ℚ) < (n : ℚ) := by exact_mod_cast hn
    have h1 : p / 100 < 1 := (div_lt_one (by norm_num : (0:ℚ) < 100)).mpr hp
    nlinarith
  have hfl : ⌊p / 100 * (n : ℚ)⌋ < (n : ℤ) := Int.floor_lt.mpr (by exact_mod_cast hq)
  have hn' : (0 : ℤ) < (n : ℤ) := by exact_mod_cast hn
  have := (Int.toNat_lt_toNat hn').mpr hfl
  simpa [numOnes] using this

theorem length_metricsVectors (a1 a2 : List ℚ) (p : ℚ) (hlen : a1.length = a2.length)
    (hp : p ≤ 100) :
    (metricsVectors a1 a2 p).1.length = a1.length
      ∧ (metricsVectors a1 a2 p).2.length = a1.length := by
  have hle := numOnes_le (n := a1.length) hp
  have ht : (targetingVector (numOnes p a1.length) (a1.length - numOnes p a1.length)).length
      = a1.length := by
    rw [targetingVector_length]
    omega
  constructor
  · simp only [metricsVectors, List.length_map, List.length_insertionSort, List.length_zip, ht]
    omega
  · simpa [metricsVectors] using ht

theorem mem_metricsVectors_fst_t {a1 a2 : List ℚ} {p : ℚ} {x : ℚ}
    (h : x ∈ (metricsVectors a1 a2 p).1) :
    x ∈ targetingVector (numOnes p a1.length) (a1.length - numOnes p a1.length) := by
  simp only [metricsVectors] at h
  rcases List.mem_map.mp h with ⟨pr, hpr, hx⟩
  have hpr' := (List.perm_insertionSort _ _).mem_iff.mp hpr
  exact hx ▸ (List.of_mem_zip hpr').1

theorem mem_metricsVectors_fst {a1 a2 : List ℚ} {p : ℚ} {x : ℚ}
    (h : x ∈ (metricsVectors a1 a2 p).1) : x = 0 ∨ x = 1 :=
  mem_targetingVector (mem_metricsVectors_fst_t h)

theorem mem_metricsVectors_snd {a1 a2 : List ℚ} {p : ℚ} {x : ℚ}
    (h : x ∈ (metricsVectors a1 a2 p).2) : x = 0 ∨ x = 1 :=
  mem_targetingVector h

theorem confusionLabels_nodup (yt yp : List ℚ) : (confusionLabels yt yp).Nodup :=
  ((List.perm_insertionSort _ _).nodup_iff).mpr (List.nodup_dedup _)

theorem confusionLabels_sorted (yt yp : List ℚ) :
    (confusionLabels yt yp).Sorted (· ≤ ·) :=
  List.sorted_insertionSort _ _

theorem mem_confusionLabels {yt yp : List ℚ} {x : ℚ} :
    x ∈ confusionLabels yt yp ↔ x ∈ yt ∨ x ∈ yp := by
  rw [confusionLabels, (List.perm_insertionSort _ _).mem_iff, List.mem_dedup, List.mem_append]

theorem length_flatMap_map {α : Type} (L1 L2 : List ℚ) (f : ℚ → ℚ → α) :
    (L1.flatMap (fun i => L2.map (f i))).length = L1.length * L2.length := by
  induction L1 with
  | nil => simp
  | cons a t ih =>
    simp only [List.flatMap_cons, List.length_append, List.length_map, List.length_cons, ih]
    ring

theorem confusionRavel_length (yt yp : List ℚ) :
    (confusionRavel yt yp).length
      = (confusionLabels yt yp).length * (confusionLabels yt yp).length :=
  length_flatMap_map _ _ _

theorem sorted_nodup_eq_01 (L : List ℚ) (hnd : L.Nodup) (hs : L.Sorted (· ≤ ·))
    (hmem : ∀ x ∈ L, x = 0 ∨ x = 1) (h0 : (0 : ℚ) ∈ L) (h1 : (1 : ℚ) ∈ L) :
    L = [0, 1] := by
  match L, hnd, hs, hmem, h0, h1 with
  | [], _, _, _, h0, _ => exact absurd h0 (List.not_mem_nil _)
  | [a], _, _, _, h0, h1 =>
    have ha : (0 : ℚ) = a := List.mem_singleton.mp h0
    have hb : (1 : ℚ) = a := List.mem_singleton.mp h1
    exact absurd (ha.trans hb.symm) (by norm_num)
  | a :: b :: rest, hnd, hs, hmem, h0, h1 =>
    have hab : a ≠ b := by
      have := List.rel_of_pairwise_cons hnd (List.mem_cons_self b rest)
      exact this
    have hle : a ≤ b := List.rel_of_sorted_cons hs b (List.mem_cons_self b rest)
    have ha := hmem a (List.mem_cons_self _ _)
    have hb := hmem b (List.mem_cons_of_mem _ (List.mem_cons_self _ _))
    have ha0 : a = 0 := by
      rcases ha with h | h
      · exact h
      · rcases hb with h' | h'
        · exact absurd (h ▸ h' ▸ hle) (by norm_num)
        · exact absurd (h.trans h'.symm) hab
    have hb1 : b = 1 := by
      rcases hb with h' | h'
      · exact absurd (ha0.trans h'.symm) hab
      · exact h'
    have hrest : rest = [] := by
      rcases rest with _ | ⟨c, rest'⟩
      · rfl
      · exfalso
        have hc := hmem c (by simp)
        have hac : a ≠ c := List.rel_of_pairwise_cons hnd (by simp)
        have hbc : b ≠ c := List.rel_of_pairwise_cons (List.Pairwise.of_cons hnd) (by simp)
        rcases hc with h | h
        · exact hac (ha0.trans h.symm)
        · exact hbc (hb1.trans h.symm)
    rw [ha0, hb1, hrest]

theorem countPair_partition (l : List (ℚ × ℚ))
    (h : ∀ q ∈ l, (q.1 = 0 ∨ q.1 = 1) ∧ (q.2 = 0 ∨ q.2 = 1)) :
    l.countP (fun q => decide (q.1 = 0 ∧ q.2 = 0))
      + l.countP (fun q => decide (q.1 = 0 ∧ q.2 = 1))
      + l.countP (fun q => decide (q.1 = 1 ∧ q.2 = 0))
      + l.countP (fun q => decide (q.1 = 1 ∧ q.2 = 1)) = l.length := by
  induction l with
  | nil => simp
  | cons q l ih =>
    have hq := h q (List.mem_cons_self q l)
    have ihl := ih (fun r hr => h r (List.mem_cons_of_mem q hr))
    simp only [List.countP_cons, List.length_cons]
    rcases hq.1 with h1 | h1 <;> rcases hq.2 with h2 | h2 <;>
      simp [h1, h2] at ihl ⊢ <;> omega

theorem confusionLabels_eq_01 {yt yp : List ℚ} {tn fp fn tp : ℕ}
    (hmemt : ∀ x ∈ yt, x = 0 ∨ x = 1) (hmemp : ∀ x ∈ yp, x = 0 ∨ x = 1)
    (h : confusionRavel yt yp = [tn, fp, fn, tp]) :
    confusionLabels yt yp = [0, 1] := by
  have hlen : (confusionLabels yt yp).length * (confusionLabels yt yp).length = 4 := by
    have h4 := confusionRavel_length yt yp
    rw [h] at h4
    simpa using h4.symm
  have hL2 : (confusionLabels yt yp).length = 2 := by nlinarith
  obtain ⟨a, b, hab⟩ := List.length_eq_two.mp hL2
  have hmem : ∀ x ∈ confusionLabels yt yp, x = 0 ∨ x = 1 := by
    intro x hx
    rcases mem_confusionLabels.mp hx with h' | h'
    · exact hmemt x h'
    · exact hmemp x h'
  have h0 : (0 : ℚ) ∈ confusionLabels yt yp ∨ (1 : ℚ) ∈ confusionLabels yt yp := by
    have ha : a ∈ confusionLabels yt yp := by rw [hab]; simp
    rcases hmem a ha with h' | h'
    · exact Or.inl (h' ▸ ha)
    · exact Or.inr (h' ▸ ha)
  have hboth : (0 : ℚ) ∈ confusionLabels yt yp ∧ (1 : ℚ) ∈ confusionLabels yt yp := by
    have ha : a ∈ confusionLabels yt yp := by rw [hab]; simp
    have hb : b ∈ confusionLabels yt yp := by rw [hab]; simp
    have hnd := confusionLabels_nodup yt yp
    have hne : a ≠ b := by
      rw [hab] at hnd
      exact List.rel_of_pairwise_cons hnd (List.mem_cons_self b [])
    rcases hmem a ha with h1 | h1 <;> rcases hmem b hb with h2 | h2
    · exact absurd (h1.trans h2.symm) hne
    · exact ⟨h1 ▸ ha, h2 ▸ hb⟩
    · exact ⟨h2 ▸ hb, h1 ▸ ha⟩
    · exact absurd (h1.trans h2.symm) hne
  exact sorted_nodup_eq_01 _ (confusionLabels_nodup yt yp) (confusionLabels_sorted yt yp)
    hmem hboth.1 hboth.2

theorem unpack4_ok {R : List ℕ} {tn fp fn tp : ℕ}
    (h : unpack4 R = .ok (tn, fp, fn, tp)) : R = [tn, fp, fn, tp] := by
  unfold unpack4 at h
  split at h
  · rename_i a b c d
    obtain ⟨rfl, rfl, rfl, rfl⟩ : a = tn ∧ b = fp ∧ c = fn ∧ d = tp := by
      have := Except.ok.inj h
      simp_all
    rfl
  · exact absurd h (by simp)

theorem unpack4_error_of_short {R : List ℕ} (h : R.length ≤ 1) :
    unpack4 R = .error unpackErrorMsg := by
  rcases R with _ | ⟨a, _ | ⟨b, t⟩⟩
  · rfl
  · rfl
  · simp at h

theorem nodup_all_eq_length_le_one {L : List ℚ} (hnd : L.Nodup)
    (h : ∀ x ∈ L, x = 0) : L.length ≤ 1 := by
  rcases L with _ | ⟨a, _ | ⟨b, t⟩⟩
  · simp
  · simp
  · exfalso
    have hab : a ≠ b := List.rel_of_pairwise_cons hnd (List.mem_cons_self b t)
    have ha := h a (List.mem_cons_self _ _)
    have hb := h b (List.mem_cons_of_mem _ (List.mem_cons_self _ _))
    exact hab (ha.trans hb.symm)

/-- Claim C1: whenever the four confusion counts inside `metrics` are actually
computed (the unpack succeeds), they are non-negative and sum to `len(a1)`. -/
theorem metrics_confusion_counts_sum (a1 a2 : List ℚ) (p : ℚ)
    (hlen : a1.length = a2.length) (hp0 : 0 < p) (hp1 : p < 100)
    (tn fp fn tp : ℕ) (hok : metricsCounts a1 a2 p = .ok (tn, fp, fn, tp)) :
    (0 : ℤ) ≤ (tn : ℤ) ∧ (0 : ℤ) ≤ (fp : ℤ) ∧ (0 : ℤ) ≤ (fn : ℤ) ∧ (0 : ℤ) ≤ (tp : ℤ)
      ∧ tn + fp + fn + tp = a1.length := by
  refine ⟨Int.ofNat_nonneg _, Int.ofNat_nonneg _, Int.ofNat_nonneg _, Int.ofNat_nonneg _, ?_⟩
  have hcond : ¬(p = 0 ∨ p = 100) := by
    push_neg
    exact ⟨ne_of_gt hp0, ne_of_lt hp1⟩
  rw [metricsCounts, if_neg hcond] at hok
  set b1 := (metricsVectors a1 a2 p).1 with hb1
  set b2 := (metricsVectors a1 a2 p).2 with hb2
  have hR : confusionRavel b1 b2 = [tn, fp, fn, tp] := unpack4_ok hok
  have hmem1 : ∀ x ∈ b1, x = 0 ∨ x = 1 := fun _ hx => mem_metricsVectors_fst hx
  have hmem2 : ∀ x ∈ b2, x = 0 ∨ x = 1 := fun _ hx => mem_metricsVectors_snd hx
  have hlab := confusionLabels_eq_01 hmem1 hmem2 hR
  have hR2 : confusionRavel b1 b2 =
      [countPair b1 b2 0 0, countPair b1 b2 0 1, countPair b1 b2 1 0, countPair b1 b2 1 1] := by
    rw [confusionRavel, hlab]
    rfl
  rw [hR] at hR2
  obtain ⟨e1, e2, e3, e4⟩ : tn = countPair b1 b2 0 0 ∧ fp = countPair b1 b2 0 1
      ∧ fn = countPair b1 b2 1 0 ∧ tp = countPair b1 b2 1 1 := by
    simpa using hR2
  have hzipmem : ∀ q ∈ b1.zip b2, (q.1 = 0 ∨ q.1 = 1) ∧ (q.2 = 0 ∨ q.2 = 1) := by
    intro q hq
    exact ⟨hmem1 _ (List.of_mem_zip hq).1, hmem2 _ (List.of_mem_zip hq).2⟩
  have hpart := countPair_partition (b1.zip b2) hzipmem
  have hzl : (b1.zip b2).length = a1.length := by
    have hL := length_metricsVectors a1 a2 p hlen (le_of_lt hp1)
    rw [List.length_zip, hb1, hb2, hL.1, hL.2, min_self]
  rw [e1, e2, e3, e4]
  rw [hzl] at hpart
  exact hpart

/-- Witness for C1 at `a1 = [3, 1, 2]`, `a2 = [2, 3, 1]`, `p = 50`. -/
theorem metrics_confusion_counts_sum_witness :
    (1 : ℕ) + 1 + 1 + 0 = ([(3 : ℚ), 1, 2] : List ℚ).length :=
  (metrics_confusion_counts_sum [3, 1, 2] [2, 3, 1] 50 rfl (by norm_num) (by norm_num)
    1 1 1 0 (by
      norm_num [metricsCounts, unpack4, metricsVectors, targetingVector, numOnes, countPair,
        confusionRavel, confusionLabels, List.insertionSort, List.orderedInsert,
        List.dedup_cons_of_mem, List.dedup_cons_of_not_mem, List.replicate_succ,
        List.zip_cons_cons, List.countP_cons, List.mem_cons])).2.2.2.2

theorem targetingVector_zero (n : ℕ) : targetingVector 0 n = List.replicate n 0 := by
  simp [targetingVector]

theorem metricsVectors_snd_eq (a1 a2 : List ℚ) (p : ℚ) :
    (metricsVectors a1 a2 p).2
      = targetingVector (numOnes p a1.length) (a1.length - numOnes p a1.length) := rfl

theorem metricsCounts_error_of_numOnes_zero (a1 a2 : List ℚ) (p : ℚ)
    (hp0 : 0 < p) (hp1 : p < 100) (h0 : numOnes p a1.length = 0) :
    metricsCounts a1 a2 p = .error unpackErrorMsg := by
  have hcond : ¬(p = 0 ∨ p = 100) := by
    push_neg
    exact ⟨ne_of_gt hp0, ne_of_lt hp1⟩
  rw [metricsCounts, if_neg hcond]
  apply unpack4_error_of_short
  have ht : targetingVector (numOnes p a1.length) (a1.length - numOnes p a1.length)
      = List.replicate (a1.length - numOnes p a1.length) 0 := by
    rw [h0, targetingVector_zero]
  have hmem : ∀ x ∈ confusionLabels (metricsVectors a1 a2 p).1 (metricsVectors a1 a2 p).2,
      x = 0 := by
    intro x hx
    rcases mem_confusionLabels.mp hx with h | h
    · have := mem_metricsVectors_fst_t h
      rw [ht] at this
      exact List.eq_of_mem_replicate this
    · have : x ∈ targetingVector (numOnes p a1.length) (a1.length - numOnes p a1.length) := h
      rw [ht] at this
      exact List.eq_of_mem_replicate this
  have hL1 : (confusionLabels (metricsVectors a1 a2 p).1 (metricsVectors a1 a2 p).2).length ≤ 1 :=
    nodup_all_eq_length_le_one (confusionLabels_nodup _ _) hmem
  rw [confusionRavel_length]
  calc _ ≤ 1 * 1 := Nat.mul_le_mul hL1 hL1
  _ = 1 := rfl

theorem metrics_error_of_numOnes_zero (a1 a2 : List ℚ) (p : ℚ)
    (hp0 : 0 < p) (hp1 : p < 100) (h0 : numOnes p a1.length = 0) :
    metrics a1 a2 p = .error unpackErrorMsg := by
  have h := metricsCounts_error_of_numOnes_zero a1 a2 p hp0 hp1 h0
  simp only [metrics, h]
  rfl

/-- Claim C4: for `0 < p < 100/len(a1)` the synthetic label vector is all
zeros, the confusion matrix degenerates, and `metrics` raises at the four-way
unpack instead of returning the five-metric tuple. -/
theorem metrics_raises_for_small_p (a1 a2 : List ℚ) (p : ℚ)
    (hlen : a1.length = a2.length) (hp0 : 0 < p)
    (hps : p < 100 / (a1.length : ℚ)) :
    targetingVector (numOnes p a1.length) (a1.length - numOnes p a1.length)
        = List.replicate a1.length 0
      ∧ metrics a1 a2 p = .error unpackErrorMsg := by
  rcases Nat.eq_zero_or_pos a1.length with hn | hn
  · rw [hn] at hps
    norm_num at hps
    linarith
  · have hn' : (0 : ℚ) < (a1.length : ℚ) := by exact_mod_cast hn
    have hn1 : (1 : ℚ) ≤ (a1.length : ℚ) := by exact_mod_cast hn
    have hps' : p * (a1.length : ℚ) < 100 := (lt_div_iff hn').mp hps
    have hp1 : p < 100 := lt_of_lt_of_le hps (div_le_self (by norm_num) hn1)
    have h0 : numOnes p a1.length = 0 := by
      have hlt : p / 100 * (a1.length : ℚ) < 1 := by
        rw [div_mul_eq_mul_div]
        exact (div_lt_one (by norm_num)).mpr hps'
      have hge : (0 : ℚ) ≤ p / 100 * (a1.length : ℚ) := by positivity
      have hfl : ⌊p / 100 * (a1.length : ℚ)⌋ = 0 :=
        Int.floor_eq_zero_iff.mpr (Set.mem_Ico.mpr ⟨hge, hlt⟩)
      simp [numOnes, hfl]
    refine ⟨?_, metrics_error_of_numOnes_zero a1 a2 p hp0 hp1 h0⟩
    rw [h0, targetingVector_zero, Nat.sub_zero]

/-- Witness for C4 at `a1 = [1, 2]`, `a2 = [2, 1]`, `p = 10`. -/
theorem metrics_raises_for_small_p_witness :
    metrics [(1 : ℚ), 2] [(2 : ℚ), 1] 10 = .error unpackErrorMsg :=
  (metrics_raises_for_small_p [1, 2] [2, 1] 10 rfl (by norm_num) (by norm_num)).2

/-- Counterexample to claim C3 as stated: for `a1 = a2 = [0, 1]` and the valid
threshold `p = 10` the `metrics` call raises (the synthetic label vector is all
zeros) instead of returning accuracy = precision = recall = 1. -/
theorem metrics_perfect_predictor_cex :
    metrics [(0 : ℚ), 1] [(0 : ℚ), 1] 10 = .error unpackErrorMsg :=
  metrics_error_of_numOnes_zero [0, 1] [0, 1] 10 (by norm_num) (by norm_num)
    (by norm_num [numOnes])

theorem zip_self_eq_map (l : List ℚ) : l.zip l = l.map (fun x => (x, x)) := by
  induction l with
  | nil => rfl
  | cons a t ih => simp [List.zip_cons_cons, ih]

instance fstLeTotal : IsTotal (ℚ × ℚ) (fun u v => u.1 ≤ v.1) :=
  ⟨fun a b => le_total a.1 b.1⟩

instance fstLeTrans : IsTrans (ℚ × ℚ) (fun u v => u.1 ≤ v.1) :=
  ⟨fun _ _ _ h1 h2 => le_trans h1 h2⟩

instance sndLeTotal : IsTotal (ℚ × ℚ) (fun u v => u.2 ≤ v.2) :=
  ⟨fun a b => le_total a.2 b.2⟩

instance sndLeTrans : IsTrans (ℚ × ℚ) (fun u v => u.2 ≤ v.2) :=
  ⟨fun _ _ _ h1 h2 => le_trans h1 h2⟩

/-- On a perfect predictor the second stable sort leaves the already-sorted
second row in place, so the first binary vector coincides with the targeting
vector. -/
theorem metricsVectors_self_eq_t (a1 : List ℚ) (p : ℚ) (hp : p ≤ 100) :
    (metricsVectors a1 a1 p).1
      = targetingVector (numOnes p a1.length) (a1.length - numOnes p a1.length) := by
  set t := targetingVector (numOnes p a1.length) (a1.length - numOnes p a1.length) with htdef
  have htlen : t.length = a1.length := by
    rw [htdef, targetingVector_length]
    have := numOnes_le (n := a1.length) hp
    omega
  simp only [metricsVectors]
  rw [zip_self_eq_map]
  set s1 := (a1.map (fun x => (x, x))).insertionSort (fun u v => u.1 ≤ v.1) with hs1def
  have helem : ∀ pr ∈ s1, pr.1 = pr.2 := by
    intro pr hpr
    have : pr ∈ a1.map (fun x => (x, x)) :=
      (List.perm_insertionSort _ _).mem_iff.mp hpr
    rcases List.mem_map.mp this with ⟨x, _, hx⟩
    rw [← hx]
  have hs1 : s1.Pairwise (fun u v : ℚ × ℚ => u.1 ≤ v.1) :=
    List.sorted_insertionSort _ _
  have hsnd : s1.Pairwise (fun u v : ℚ × ℚ => u.2 ≤ v.2) :=
    List.Pairwise.imp_of_mem
      (fun ha hb hr => by
        rw [← helem _ ha, ← helem _ hb]
        exact hr) hs1
  have hs1len : (s1.map Prod.snd).length = a1.length := by
    simp [hs1def]
  have hmapsnd : (t.zip (s1.map Prod.snd)).map Prod.snd = s1.map Prod.snd :=
    List.map_snd_zip _ _ (by rw [hs1len, htlen])
  have hpw : (t.zip (s1.map Prod.snd)).Pairwise (fun u v : ℚ × ℚ => u.2 ≤ v.2) := by
    have h1 : ((t.zip (s1.map Prod.snd)).map Prod.snd).Pairwise (· ≤ ·) := by
      rw [hmapsnd]
      exact List.pairwise_map.mpr hsnd
    exact List.pairwise_map.mp h1
  have hfix : (t.zip (s1.map Prod.snd)).insertionSort (fun u v => u.2 ≤ v.2)
      = t.zip (s1.map Prod.snd) :=
    List.Sorted.insertionSort_eq hpw
  rw [hfix]
  exact List.map_fst_zip _ _ (by rw [hs1len, htlen])

theorem one_mem_targetingVector {nO nZ : ℕ} (h : 1 ≤ nO) :
    (1 : ℚ) ∈ targetingVector nO nZ := by
  rw [targetingVector, List.mem_append]
  exact Or.inl (List.mem_replicate.mpr ⟨by omega, rfl⟩)

theorem zero_mem_targetingVector {nO nZ : ℕ} (h : 1 ≤ nZ) :
    (0 : ℚ) ∈ targetingVector nO nZ := by
  rw [targetingVector, List.mem_append]
  exact Or.inr (List.mem_replicate.mpr ⟨by omega, rfl⟩)

theorem countPair_targetingVector_self (nO nZ : ℕ) (i j : ℚ) :
    countPair (targetingVector nO nZ) (targetingVector nO nZ) i j
      = (if (1 : ℚ) = i ∧ (1 : ℚ) = j then nO else 0)
        + (if (0 : ℚ) = i ∧ (0 : ℚ) = j then nZ else 0) := by
  rw [countPair, zip_self_eq_map, List.countP_map, targetingVector, List.countP_append]
  simp [List.countP_replicate, Function.comp_def]

theorem confusionRavel_targetingVector_self {nO nZ : ℕ} (hO : 1 ≤ nO) (hZ : 1 ≤ nZ) :
    confusionRavel (targetingVector nO nZ) (targetingVector nO nZ) = [nZ, 0, 0, nO] := by
  have hlab : confusionLabels (targetingVector nO nZ) (targetingVector nO nZ) = [0, 1] := by
    apply sorted_nodup_eq_01 _ (confusionLabels_nodup _ _) (confusionLabels_sorted _ _)
    · intro x hx
      rcases mem_confusionLabels.mp hx with h | h <;> exact mem_targetingVector h
    · exact mem_confusionLabels.mpr (Or.inl (zero_mem_targetingVector hZ))
    · exact mem_confusionLabels.mpr (Or.inl (one_mem_targetingVector hO))
  rw [confusionRavel, hlab]
  simp only [List.flatMap_cons, List.map_cons, List.map_nil, List.flatMap_nil,
    List.append_nil, List.cons_append, List.nil_append, countPair_targetingVector_self]
  norm_num

theorem metricsCounts_self (a1 : List ℚ) (p : ℚ) (hp0 : 0 < p) (hp1 : p < 100)
    (h1 : 1 ≤ numOnes p a1.length) :
    metricsCounts a1 a1 p
      = .ok (a1.length - numOnes p a1.length, 0, 0, numOnes p a1.length) := by
  have hcond : ¬(p = 0 ∨ p = 100) := by
    push_neg
    exact ⟨ne_of_gt hp0, ne_of_lt hp1⟩
  have hn : 0 < a1.length := lt_of_lt_of_le h1 (numOnes_le (le_of_lt hp1))
  have hZ : 1 ≤ a1.length - numOnes p a1.length := by
    have := numOnes_lt hp1 hn
    omega
  rw [metricsCounts, if_neg hcond, metricsVectors_self_eq_t a1 p (le_of_lt hp1),
    metricsVectors_snd_eq, confusionRavel_targetingVector_self h1 hZ]
  rfl

/-- Claim C3 (amended): for a perfect predictor `metrics(a1, a1, p)` returns
accuracy = precision = recall = 1 (and tpr = 1, fpr = 0) for every valid `p`
whose synthetic positive count `⌊p/100·len(a1)⌋` is at least 1. -/
theorem metrics_perfect_predictor (a1 : List ℚ) (p : ℚ)
    (hp0 : 0 < p) (hp1 : p < 100) (h1 : 1 ≤ numOnes p a1.length) :
    metrics a1 a1 p = .ok (1, 1, 1, 1, 0) := by
  have hM := metricsCounts_self a1 p hp0 hp1 h1
  have hn : 0 < a1.length := lt_of_lt_of_le h1 (numOnes_le (le_of_lt hp1))
  have hZ : 1 ≤ a1.length - numOnes p a1.length := by
    have := numOnes_lt hp1 hn
    omega
  have hO' : (0 : ℚ) < (numOnes p a1.length : ℚ) := by exact_mod_cast h1
  have hZ' : (0 : ℚ) < ((a1.length - numOnes p a1.length : ℕ) : ℚ) := by exact_mod_cast hZ
  simp only [metrics, hM]
  show Except.ok _ = _
  norm_num
  constructor
  · rw [div_self (by linarith)]
  · rw [div_self (by linarith)]

/-- Witness for the amended C3 at `a1 = [5, 7]`, `p = 60`. -/
theorem metrics_perfect_predictor_witness :
    metrics [(5 : ℚ), 7] [(5 : ℚ), 7] 60 = .ok (1, 1, 1, 1, 0) :=
  metrics_perfect_predictor [5, 7] 60 (by norm_num) (by norm_num)
    (by norm_num [numOnes])

/-- Modelled from the spec: `strictly_increasing` is imported from
`helpers.utils`, whose source is not in the repository snapshot; per the spec
the loop repeats "until strictly increasing", i.e. until every element exceeds
its immediate predecessor. -/
def strictly_increasing : List ℚ → Bool
  | a :: b :: rest => (decide (a < b)) && strictly_increasing (b :: rest)
  | _ => true

/-- One removal pass of the monotonization loop of `auc_overall`: index `j ≥ 1`
is put in `to_remove` exactly when `fprs[j] <= fprs[j-1]`, with indices read
off the list as it was at the start of the pass.  Points are (fpr, tpr) pairs;
filtering the two parallel python lists by the same index set is filtering the
zipped list.  `prev` is the fpr of the predecessor in the original list. -/
def removeNonIncreasing (prev : ℚ) : List (ℚ × ℚ) → List (ℚ × ℚ)
  | [] => []
  | q :: rest =>
    if q.1 ≤ prev then removeNonIncreasing q.1 rest
    else q :: removeNonIncreasing q.1 rest

/-- One iteration of the `while not strictly_increasing(fprs)` body: the point
at index 0 is never removed, every later point is kept exactly when its fpr
exceeds its original predecessor's fpr. -/
def monotonizeStep : List (ℚ × ℚ) → List (ℚ × ℚ)
  | [] => []
  | q :: rest => q :: removeNonIncreasing q.1 rest

/-- Fuel-indexed unfolding of the `while` loop. -/
def monotonizeGo : ℕ → List (ℚ × ℚ) → List (ℚ × ℚ)
  | 0, pts => pts
  | fuel + 1, pts =>
    if strictly_increasing (pts.map Prod.fst) then pts
    else monotonizeGo fuel (monotonizeStep pts)

/-- The monotonization loop of `auc_overall`.  Each iteration that does not
exit strictly shrinks the list, so `pts.length` fuel always suffices; see
`monotonize_loop_spec` for the fuel-irrelevance statement expressing
termination. -/
def monotonize (pts : List (ℚ × ℚ)) : List (ℚ × ℚ) := monotonizeGo pts.length pts

theorem length_removeNonIncreasing_le (prev : ℚ) (l : List (ℚ × ℚ)) :
    (removeNonIncreasing prev l).length ≤ l.length := by
  induction l generalizing prev with
  | nil => simp [removeNonIncreasing]
  | cons q rest ih =>
    rw [removeNonIncreasing]
    split
    · exact le_trans (ih q.1) (by simp)
    · simpa using ih q.1

theorem length_removeNonIncreasing_lt (prev : ℚ) (l : List (ℚ × ℚ))
    (h : strictly_increasing (prev :: l.map Prod.fst) = false) :
    (removeNonIncreasing prev l).length < l.length := by
  induction l generalizing prev with
  | nil => simp [strictly_increasing] at h
  | cons q rest ih =>
    rw [List.map_cons, strictly_increasing] at h
    rw [removeNonIncreasing]
    split
    · rename_i hle
      exact lt_of_le_of_lt (length_removeNonIncreasing_le q.1 rest) (by simp)
    · rename_i hgt
      push_neg at hgt
      rw [decide_eq_true hgt, Bool.true_and] at h
      simpa using ih q.1 h

theorem length_monotonizeStep_lt (pts : List (ℚ × ℚ))
    (h : strictly_increasing (pts.map Prod.fst) = false) :
    (monotonizeStep pts).length < pts.length := by
  rcases pts with _ | ⟨q, rest⟩
  · simp [strictly_increasing] at h
  · rw [monotonizeStep]
    have := length_removeNonIncreasing_lt q.1 rest (by simpa using h)
    simpa using this

theorem strictly_increasing_monotonizeGo (fuel : ℕ) (pts : List (ℚ × ℚ))
    (h : pts.length ≤ fuel) :
    strictly_increasing ((monotonizeGo fuel pts).map Prod.fst) = true := by
  induction fuel generalizing pts with
  | zero =>
    have hnil : pts = [] := List.length_eq_zero.mp (Nat.le_zero.mp h)
    simp [hnil, monotonizeGo, strictly_increasing]
  | succ fuel ih =>
    rw [monotonizeGo]
    split
    · rename_i h'
      exact h'
    · rename_i h'
      have hf : strictly_increasing (pts.map Prod.fst) = false :=
        Bool.eq_false_iff.mpr h'
      have hlt := length_monotonizeStep_lt pts hf
      exact ih _ (by omega)

theorem monotonizeGo_nil (fuel : ℕ) : monotonizeGo fuel [] = [] := by
  cases fuel with
  | zero => rfl
  | succ fuel => simp [monotonizeGo, strictly_increasing]

theorem monotonizeGo_congr (f1 : ℕ) (pts : List (ℚ × ℚ)) (f2 : ℕ)
    (h1 : pts.length ≤ f1) (h2 : pts.length ≤ f2) :
    monotonizeGo f1 pts = monotonizeGo f2 pts := by
  induction f1 generalizing pts f2 with
  | zero =>
    have hnil : pts = [] := List.length_eq_zero.mp (Nat.le_zero.mp h1)
    rw [hnil, monotonizeGo_nil, monotonizeGo_nil]
  | succ f1 ih =>
    cases f2 with
    | zero =>
      have hnil : pts = [] := List.length_eq_zero.mp (Nat.le_zero.mp h2)
      rw [hnil, monotonizeGo_nil, monotonizeGo_nil]
    | succ f2 =>
      rw [monotonizeGo]
      conv_rhs => rw [monotonizeGo]
      split
      · rfl
      · rename_i h'
        have hf : strictly_increasing (pts.map Prod.fst) = false :=
          Bool.eq_false_iff.mpr h'
        have hlt := length_monotonizeStep_lt pts hf
        exact ih _ f2 (by omega) (by omega)

theorem monotonizeGo_head (fuel : ℕ) (q : ℚ × ℚ) (rest : List (ℚ × ℚ)) :
    ∃ rest', monotonizeGo fuel (q :: rest) = q :: rest' := by
  induction fuel generalizing rest with
  | zero => exact ⟨rest, rfl⟩
  | succ fuel ih =>
    rw [monotonizeGo]
    split
    · exact ⟨rest, rfl⟩
    · rw [monotonizeStep]
      exact ih _

theorem mem_of_removeNonIncreasing {prev : ℚ} {l : List (ℚ × ℚ)} {x : ℚ × ℚ}
    (h : x ∈ removeNonIncreasing prev l) : x ∈ l := by
  induction l generalizing prev with
  | nil => simpa [removeNonIncreasing] using h
  | cons q rest ih =>
    rw [removeNonIncreasing] at h
    split at h
    · exact List.mem_cons_of_mem _ (ih h)
    · rcases List.mem_cons.mp h with h' | h'
      · simp [h']
      · exact List.mem_cons_of_mem _ (ih h')

theorem mem_removeNonIncreasing_max {m prev : ℚ} {l : List (ℚ × ℚ)}
    (hm : m ∈ l.map Prod.fst) (hub : ∀ x ∈ l.map Prod.fst, x ≤ m) (hprev : prev < m) :
    m ∈ (removeNonIncreasing prev l).map Prod.fst := by
  induction l generalizing prev with
  | nil => simp at hm
  | cons q rest ih =>
    rw [List.map_cons, List.mem_cons] at hm
    rw [removeNonIncreasing]
    split
    · rename_i hle
      have hqm : q.1 < m := lt_of_le_of_lt hle hprev
      have hm' : m ∈ rest.map Prod.fst := by
        rcases hm with h | h
        · exact absurd h.symm (ne_of_lt hqm)
        · exact h
      exact ih hm' (fun x hx => hub x (by simp [hx])) hqm
    · rename_i hgt
      push_neg at hgt
      rw [List.map_cons, List.mem_cons]
      rcases hm with h | h
      · exact Or.inl h
      · by_cases hq : q.1 = m
        · exact Or.inl hq.symm
        · have hqlt : q.1 < m := lt_of_le_of_ne (hub q.1 (by simp)) hq
          exact Or.inr (ih h (fun x hx => hub x (by simp [hx])) hqlt)

theorem mem_monotonizeGo_max (fuel : ℕ) (q : ℚ × ℚ) (rest : List (ℚ × ℚ)) {m : ℚ}
    (hm : m ∈ ((q :: rest).map Prod.fst)) (hub : ∀ x ∈ (q :: rest).map Prod.fst, x ≤ m)
    (hq : q.1 < m) : m ∈ (monotonizeGo fuel (q :: rest)).map Prod.fst := by
  induction fuel generalizing rest with
  | zero => exact hm
  | succ fuel ih =>
    rw [monotonizeGo]
    split
    · exact hm
    · rw [monotonizeStep]
      have hmr : m ∈ rest.map Prod.fst := by
        rw [List.map_cons] at hm
        rcases List.mem_cons.mp hm with h | h
        · exact absurd h.symm (ne_of_lt hq)
        · exact h
      have hpass : m ∈ (removeNonIncreasing q.1 rest).map Prod.fst :=
        mem_removeNonIncreasing_max hmr (fun x hx => hub x (by simp [hx])) hq
      apply ih
      · rw [List.map_cons]
        exact List.mem_cons.mpr (Or.inr hpass)
      · intro x hx
        rw [List.map_cons] at hx
        rcases List.mem_cons.mp hx with h | h
        · exact h ▸ hub q.1 (by simp)
        · rcases List.mem_map.mp h with ⟨pr, hpr, hpx⟩
          refine hpx ▸ hub pr.1 ?_
          rw [List.map_cons]
          exact List.mem_cons.mpr
            (Or.inr (List.mem_map_of_mem Prod.fst (mem_of_removeNonIncreasing hpr)))

/-- Claim C2: the monotonization loop of `auc_overall` terminates on every
input (any fuel at least `pts.length` gives the same, final, result), its
result has strictly increasing fprs, a list shaped like the one built by
`auc_overall` (head forced to (0,0), terminal fpr 1, all fprs at most 1) never
shrinks below the two forced endpoints, and in the worst case exactly the two
forced endpoints survive. -/
theorem monotonize_loop_spec (pts : List (ℚ × ℚ)) :
    (∀ fuel, pts.length ≤ fuel → monotonizeGo fuel pts = monotonize pts)
    ∧ strictly_increasing ((monotonize pts).map Prod.fst) = true
    ∧ (pts.head? = some (0, 0) → (1 : ℚ) ∈ pts.map Prod.fst →
        (∀ x ∈ pts.map Prod.fst, x ≤ 1) → 2 ≤ (monotonize pts).length)
    ∧ monotonize [((0 : ℚ), (0 : ℚ)), (0, 1/2), (0, 3/4), (1, 1)] = [(0, 0), (1, 1)] := by
  refine ⟨?_, ?_, ?_, ?_⟩
  · intro fuel hfuel
    exact monotonizeGo_congr fuel pts pts.length hfuel le_rfl
  · exact strictly_increasing_monotonizeGo _ _ le_rfl
  · intro hhead hmem hub
    rcases pts with _ | ⟨q, rest⟩
    · simp at hhead
    · have hq : q = (0, 0) := by simpa using hhead
      subst hq
      obtain ⟨rest', hrest'⟩ := monotonizeGo_head ((0, 0) :: rest).length (0, 0) rest
      have h1mem : (1 : ℚ) ∈ (monotonize ((0, 0) :: rest)).map Prod.fst :=
        mem_monotonizeGo_max _ _ _ hmem hub (by norm_num)
      rw [monotonize, hrest'] at h1mem ⊢
      rcases rest' with _ | ⟨r, rest''⟩
      · simp at h1mem
      · simp
  · norm_num [monotonize, monotonizeGo, monotonizeStep, removeNonIncreasing,
      strictly_increasing]

/-- Witness for C2's conditional part at the two-point list
`[(0,0), (1,1)]`. -/
theorem monotonize_loop_spec_witness :
    2 ≤ (monotonize [((0 : ℚ), (0 : ℚ)), ((1 : ℚ), (1 : ℚ))]).length :=
  (monotonize_loop_spec _).2.2.1 rfl (by norm_num) (by norm_num)

/-- Embedding of `np.linspace(a, b, num)` with endpoint included, as used by
`auc_overall`: `num` evenly spaced values starting at `a` with step
`(b - a)/(num - 1)`. -/
def linspace (a b : ℚ) (num : ℕ) : List ℚ :=
  (List.range num).map (fun k : ℕ => a + (k : ℚ) * ((b - a) / ((num : ℚ) - 1)))

/-- Trapezoidal rule over a list of (x, y) points, as `np.trapz(y, x)`. -/
def trapz : List (ℚ × ℚ) → ℚ
  | (x1, y1) :: (x2, y2) :: rest => (x2 - x1) * (y1 + y2) / 2 + trapz ((x2, y2) :: rest)
  | _ => 0

/-- Embedding of `sklearn.metrics.auc(x, y)`: raises unless there are at least
two points, computes the sweep direction from the sign of the `x` differences
(raising when `x` is neither increasing nor decreasing), and integrates with
the trapezoidal rule. -/
def sklearn_auc (pts : List (ℚ × ℚ)) : Except String ℚ :=
  if pts.length < 2 then
    .error "At least 2 points are needed to compute area under curve"
  else
    let dx := (pts.zip pts.tail).map (fun pq => pq.2.1 - pq.1.1)
    if dx.all (fun d => decide (d ≤ 0)) then .ok (-(trapz pts))
    else if dx.any (fun d => decide (d < 0)) then
      .error "x is neither increasing nor decreasing"
    else .ok (trapz pts)

/-- Embedding of `auc_overall`: `metrics` on the grid
`np.linspace(1, 100, 99)[:-1]`, first ROC point overwritten with (0,0),
terminal point (1,1) appended, monotonization, then `auc`. -/
def auc_overall (a1 a2 : List ℚ) : Except String ℚ := do
  let grid := (linspace 1 100 99).dropLast
  let mg ← grid.mapM (fun p => metrics a1 a2 p)
  let tprs := mg.map (fun g => g.2.2.2.1)
  let fprs := mg.map (fun g => g.2.2.2.2)
  let fprs2 := fprs.set 0 0 ++ [1]
  let tprs2 := tprs.set 0 0 ++ [1]
  sklearn_auc (monotonize (fprs2.zip tprs2))

theorem linspace_grid_eq :
    (linspace 1 100 99).dropLast
      = (List.range 98).map (fun k : ℕ => 1 + (k : ℚ) * (99 / 98)) := by
  have h1 : linspace 1 100 99 = (List.range 99).map (fun k : ℕ => 1 + (k : ℚ) * (99 / 98)) := by
    rw [linspace]
    apply List.map_congr_left
    intro a _
    norm_num
  rw [h1, List.range_succ, List.map_append]
  simp

/-- Claim C5: `auc_overall` sweeps exactly 98 cutoffs, 99 evenly spaced points
over [1,100] with the final one dropped and the first exactly 1; the first ROC
point is overwritten with (0,0), a terminal (1,1) is appended, and after
monotonization the curve is integrated by the trapezoidal rule. -/
theorem auc_overall_structure :
    ((linspace 1 100 99).dropLast.length = 98
      ∧ (linspace 1 100 99).dropLast.head? = some 1)
    ∧ ∀ a1 a2 : List ℚ,
        auc_overall a1 a2 = (do
          let mg ← ((List.range 98).map (fun k : ℕ => 1 + (k : ℚ) * (99 / 98))).mapM
            (fun p => metrics a1 a2 p)
          let tprs := mg.map (fun g => g.2.2.2.1)
          let fprs := mg.map (fun g => g.2.2.2.2)
          let fprs2 := fprs.set 0 0 ++ [1]
          let tprs2 := tprs.set 0 0 ++ [1]
          sklearn_auc (monotonize (fprs2.zip tprs2))) := by
  refine ⟨⟨?_, ?_⟩, ?_⟩
  · rw [linspace_grid_eq]
    simp
  · rw [linspace_grid_eq, List.range_succ_eq_map]
    norm_num
  · intro a1 a2
    rw [auc_overall, linspace_grid_eq]

/-- A column of a tabular dataset: numeric (possibly missing entries) or
non-numeric/object (strings, possibly missing entries). -/
inductive Col where
  | num (vals : List (Option ℚ))
  | txt (vals : List (Option String))
deriving DecidableEq

/-- A table is an ordered list of named columns — the mapping from column name
to column of values of the spec's data model. -/
abbrev Table := List (String × Col)

/-- Number of missing entries of a column, `X[c].isna().sum()`. -/
def colMissingCount : Col → ℕ
  | .num vs => vs.countP (fun v => v.isNone)
  | .txt vs => vs.countP (fun v => v.isNone)

/-- Number of entries of a column. -/
def colLength : Col → ℕ
  | .num vs => vs.length
  | .txt vs => vs.length

/-- Per-column entry of `X.isna().mean()`; `none` embeds the `NaN` that pandas
produces for a zero-row column (every comparison against it is false). -/
def missingFrac (c : Col) : Option ℚ :=
  if colLength c = 0 then none
  else some ((colMissingCount c : ℚ) / (colLength c : ℚ))

/-- Fitted state of `DropMissing`. -/
structure DropMissingState where
  threshold : ℚ
  missing_frac : List (String × Option ℚ)
  cols_to_drop : List String
  cols_to_keep : List String

/-- The comparison `missing > threshold` selecting columns to drop
(false against the `NaN` of a zero-row column). -/
def fracGt (t : ℚ) : Option ℚ → Bool
  | some q => decide (t < q)
  | none => false

/-- The comparison `missing <= threshold` selecting columns to keep. -/
def fracLe (t : ℚ) : Option ℚ → Bool
  | some q => decide (q ≤ t)
  | none => false

/-- Embedding of `DropMissing.fit`: computes the per-column missing fractions
and partitions the column names by comparison with the threshold. -/
def DropMissing.fit (threshold : ℚ) (X : Table) : DropMissingState :=
  { threshold := threshold
    missing_frac := X.map (fun c => (c.1, missingFrac c.2))
    cols_to_drop := (X.filter (fun c => fracGt threshold (missingFrac c.2))).map Prod.fst
    cols_to_keep := (X.filter (fun c => fracLe threshold (missingFrac c.2))).map Prod.fst }

/-- Embedding of `DropMissing.transform`, `X.drop(cols_to_drop.values, axis=1)`:
raises a `KeyError` when a column to drop is absent from the table, otherwise
removes every column bearing a listed name. -/
def DropMissing.transform (s : DropMissingState) (X : Table) : Except String Table :=
  if s.cols_to_drop.all (fun d => decide (d ∈ X.map Prod.fst)) then
    .ok (X.filter (fun c => decide (c.1 ∉ s.cols_to_drop)))
  else .error "KeyError: labels not found in axis"

theorem fracGt_iff (t : ℚ) (o : Option ℚ) :
    fracGt t o = true ↔ ∃ q, o = some q ∧ t < q := by
  cases o <;> simp [fracGt]

theorem lookup_some_mem {α : Type} {l : List (String × α)} {a : String} {b : α}
    (h : l.lookup a = some b) : (a, b) ∈ l := by
  induction l with
  | nil => simp [List.lookup] at h
  | cons kv rest ih =>
    rcases kv with ⟨k, v⟩
    rw [List.lookup] at h
    by_cases hk : a == k
    · simp only [hk] at h
      have hak : a = k := eq_of_beq hk
      have hvb : v = b := Option.some.inj h
      subst hak
      subst hvb
      exact List.mem_cons_self _ _
    · simp only [Bool.not_eq_true] at hk
      simp only [hk] at h
      exact List.mem_cons_of_mem _ (ih h)

/-- Claim C8: on the table it was fitted on, `DropMissing` keeps exactly the
columns whose missing fraction does not exceed the threshold, and no dropped
column name appears in the output. -/
theorem dropMissing_fit_transform (t : ℚ) (X : Table)
    (hnd : (X.map Prod.fst).Nodup) :
    ∃ Y, DropMissing.transform (DropMissing.fit t X) X = .ok Y
      ∧ (∀ nm c, (nm, c) ∈ Y ↔
          ((nm, c) ∈ X ∧ ¬∃ q, missingFrac c = some q ∧ t < q))
      ∧ ∀ nm ∈ (DropMissing.fit t X).cols_to_drop, nm ∉ Y.map Prod.fst := by
  have hinj := List.inj_on_of_nodup_map hnd
  have hdropname : ∀ nm : String, nm ∈ (DropMissing.fit t X).cols_to_drop ↔
      ∃ c', c' ∈ X ∧ fracGt t (missingFrac c'.2) = true ∧ c'.1 = nm := by
    intro nm
    simp only [DropMissing.fit, List.mem_map, List.mem_filter]
    constructor
    · rintro ⟨c', ⟨hc1, hc2⟩, hc3⟩
      exact ⟨c', hc1, hc2, hc3⟩
    · rintro ⟨c', hc1, hc2, hc3⟩
      exact ⟨c', ⟨hc1, hc2⟩, hc3⟩
  have hguard : ((DropMissing.fit t X).cols_to_drop.all
      (fun d => decide (d ∈ X.map Prod.fst))) = true := by
    rw [List.all_eq_true]
    intro d hd
    rcases (hdropname d).mp hd with ⟨c', hc1, _, hc3⟩
    simp only [decide_eq_true_eq]
    exact List.mem_map.mpr ⟨c', hc1, hc3⟩
  refine ⟨X.filter (fun c => decide (c.1 ∉ (DropMissing.fit t X).cols_to_drop)), ?_, ?_, ?_⟩
  · rw [DropMissing.transform, if_pos hguard]
  · intro nm c
    rw [List.mem_filter]
    constructor
    · rintro ⟨hmem, hdec⟩
      refine ⟨hmem, ?_⟩
      intro ⟨q, hq, hlt⟩
      have : nm ∈ (DropMissing.fit t X).cols_to_drop :=
        (hdropname nm).mpr ⟨(nm, c), hmem, by rw [fracGt_iff]; exact ⟨q, hq, hlt⟩, rfl⟩
      simpa [this] using hdec
    · rintro ⟨hmem, hq⟩
      refine ⟨hmem, ?_⟩
      have : nm ∉ (DropMissing.fit t X).cols_to_drop := by
        intro hd
        rcases (hdropname nm).mp hd with ⟨c', hc1, hc2, hc3⟩
        have : c' = (nm, c) := hinj hc1 hmem (by simpa using hc3)
        rw [this, fracGt_iff] at hc2
        exact hq hc2
      simpa using this
  · intro nm hnm hmemY
    rcases List.mem_map.mp hmemY with ⟨c', hc', hfst⟩
    rcases List.mem_filter.mp hc' with ⟨_, hdec⟩
    rw [hfst] at hdec
    simpa [hnm] using hdec

/-- Example table for the C8 witness: column `b` has missing fraction 1,
column `a` has 1/2, column `c` has 0. -/
def XexDM : Table :=
  [("a", Col.num [some 1, none]), ("b", Col.num [none, none]),
   ("c", Col.txt [some "x", some "y"])]

/-- Witness for C8 at `XexDM` with threshold 1/2. -/
theorem dropMissing_fit_transform_witness :
    ∃ Y, DropMissing.transform (DropMissing.fit (1/2) XexDM) XexDM = .ok Y
      ∧ (∀ nm c, (nm, c) ∈ Y ↔
          ((nm, c) ∈ XexDM ∧ ¬∃ q, missingFrac c = some q ∧ (1/2 : ℚ) < q))
      ∧ ∀ nm ∈ (DropMissing.fit (1/2) XexDM).cols_to_drop, nm ∉ Y.map Prod.fst :=
  dropMissing_fit_transform (1/2) XexDM (by
    norm_num [XexDM, List.nodup_cons]
    decide)

/-- The `limits` configuration of `Winsorizer`: unset (`None`), a single
symmetric fraction, or an explicit percentile pair. -/
inductive WinsorLimits where
  | unset
  | single (f : ℚ)
  | pair (lo hi : ℚ)

/-- The limits resolution at the start of `fit`: `None` becomes the float pair
`(0.01, 0.99)` (embedded as exact rationals), a single float `f` becomes
`(f, 1 - f)`, an explicit pair is kept. -/
def resolveLimits : WinsorLimits → ℚ × ℚ
  | .unset => (1/100, 99/100)
  | .single f => (f, 1 - f)
  | .pair lo hi => (lo, hi)

/-- Pandas `Series.quantile(q)` with the default linear interpolation: missing
entries are dropped, the remaining values sorted, and the value at fractional
position `q·(m-1)` is interpolated; `none` embeds the `NaN` returned for an
all-missing column.  Faithful on the domain `0 ≤ q ≤ 1` accepted by pandas. -/
def quantile (vals : List (Option ℚ)) (q : ℚ) : Option ℚ :=
  let xs := (vals.filterMap id).insertionSort (· ≤ ·)
  if xs.isEmpty then none
  else
    let m := xs.length
    let h := q * ((m : ℚ) - 1)
    let i := (⌊h⌋).toNat
    let lo := xs.getD i 0
    let hi := xs.getD (i + 1) lo
    some (lo + (h - (i : ℚ)) * (hi - lo))

/-- Quantile of a column; `fit` queries it only on numeric columns. -/
def colQuantile : Col → ℚ → Option ℚ
  | .num vs, q => quantile vs q
  | .txt _, _ => none

/-- The `pd.api.types.is_numeric_dtype` test used by `fit`. -/
def isNumericCol : Col → Bool
  | .num _ => true
  | .txt _ => false

/-- Fitted state of `Winsorizer`. -/
structure WinsorizerState where
  limits : ℚ × ℚ
  columns : List String
  threshold_dict : List (String × (Option ℚ × Option ℚ))

/-- Embedding of `Winsorizer.fit`: resolve the limits, then store for every
numeric column the two quantile values as its clip bounds. -/
def Winsorizer.fit (limits : WinsorLimits) (X : Table) : WinsorizerState :=
  let lims := resolveLimits limits
  { limits := lims
    columns := (X.filter (fun c => isNumericCol c.2)).map Prod.fst
    threshold_dict := (X.filter (fun c => isNumericCol c.2)).map
      (fun c => (c.1, (colQuantile c.2 lims.1, colQuantile c.2 lims.2))) }

/-- Embedding of the inner `trim` function of `Winsorizer.transform`: missing
values pass through; otherwise the value is clipped below then above.  A
`none` bound embeds a `NaN` quantile, against which both comparisons are
false, leaving the value unchanged. -/
def trim (low high : Option ℚ) (x : Option ℚ) : Option ℚ :=
  match x with
  | none => none
  | some v =>
    let v1 := match low with
      | some lo => if v < lo then lo else v
      | none => v
    let v2 := match high with
      | some hi => if hi < v1 then hi else v1
      | none => v1
    some v2

/-- Vectorized `trim` over one column; `threshold_dict` holds only numeric
columns when fitted, so the non-numeric branch is inert. -/
def trimCol (c : Col) (low high : Option ℚ) : Col :=
  match c with
  | .num vs => .num (vs.map (trim low high))
  | .txt vs => .txt vs

/-- Embedding of `Winsorizer.transform`: works on a copy (`X_t = X.copy()`),
overwrites every column listed in the fitted `threshold_dict` with its clipped
values (reading `X_t[column]` raises a `KeyError` when such a column is
absent), and leaves all other columns untouched. -/
def Winsorizer.transform (s : WinsorizerState) (X : Table) : Except String Table :=
  if s.threshold_dict.all (fun kv => decide (kv.1 ∈ X.map Prod.fst)) then
    .ok (X.map (fun c =>
      match s.threshold_dict.lookup c.1 with
      | some (lo, hi) => (c.1, trimCol c.2 lo hi)
      | none => c))
  else .error "KeyError: column not in table"

theorem trim_none_iff (low high : Option ℚ) (x : Option ℚ) :
    trim low high x = none ↔ x = none := by
  cases x with
  | none => simp [trim]
  | some v => simp [trim]

theorem trim_some_eq (lo hi v : ℚ) :
    trim (some lo) (some hi) (some v)
      = some (if hi < (if v < lo then lo else v) then hi else (if v < lo then lo else v)) :=
  rfl

theorem trim_some_bounds {lo hi : ℚ} (hle : lo ≤ hi) (v : ℚ) :
    ∀ w, trim (some lo) (some hi) (some v) = some w → lo ≤ w ∧ w ≤ hi := by
  intro w hw
  rw [trim_some_eq] at hw
  have hw' : w = _ := (Option.some.inj hw).symm
  by_cases h1 : v < lo
  · rw [if_pos h1, if_neg (not_lt.mpr hle)] at hw'
    rw [hw']
    exact ⟨le_refl lo, hle⟩
  · rw [if_neg h1] at hw'
    push_neg at h1
    by_cases h2 : hi < v
    · rw [if_pos h2] at hw'
      rw [hw']
      exact ⟨hle, le_refl hi⟩
    · rw [if_neg h2] at hw'
      push_neg at h2
      rw [hw']
      exact ⟨h1, h2⟩

theorem winsorizer_guard (limits : WinsorLimits) (X : Table) :
    ((Winsorizer.fit limits X).threshold_dict.all
      (fun kv => decide (kv.1 ∈ X.map Prod.fst))) = true := by
  rw [List.all_eq_true]
  intro kv hkv
  simp only [Winsorizer.fit, List.mem_map, List.mem_filter] at hkv
  rcases hkv with ⟨c', ⟨hc1, _⟩, hc3⟩
  simp only [decide_eq_true_eq]
  exact List.mem_map.mpr ⟨c', hc1, by rw [← hc3]⟩

/-- Claim C7: applying a fitted `Winsorizer` to the table it was fitted on
succeeds; every non-numeric column passes through identical to the input; and
every configured numeric column is replaced by its trimmed values, in which
missing entries remain missing and every present value lies within the
column's fitted `[low, high]` bounds (`low ≤ high` being the spec's invariant
on fitted column statistics). -/
theorem winsorizer_fit_transform (limits : WinsorLimits) (X : Table) :
    ∃ Y, Winsorizer.transform (Winsorizer.fit limits X) X = .ok Y
      ∧ (∀ nm vs, (nm, Col.txt vs) ∈ X → (nm, Col.txt vs) ∈ Y)
      ∧ (∀ nm vs lo hi, (nm, Col.num vs) ∈ X
          → (Winsorizer.fit limits X).threshold_dict.lookup nm = some (some lo, some hi)
          → lo ≤ hi
          → (nm, Col.num (vs.map (trim (some lo) (some hi)))) ∈ Y
            ∧ ∀ x ∈ vs, (trim (some lo) (some hi) x = none ↔ x = none)
              ∧ ∀ v, trim (some lo) (some hi) x = some v → lo ≤ v ∧ v ≤ hi) := by
  set s := Winsorizer.fit limits X with hs
  set g : String × Col → String × Col := (fun c =>
    match s.threshold_dict.lookup c.1 with
    | some (lo, hi) => (c.1, trimCol c.2 lo hi)
    | none => c) with hg
  refine ⟨X.map g, ?_, ?_, ?_⟩
  · rw [Winsorizer.transform, if_pos (winsorizer_guard limits X)]
  · intro nm vs hmem
    have heq : g (nm, Col.txt vs) = (nm, Col.txt vs) := by
      rw [hg]
      cases hl : List.lookup nm s.threshold_dict with
      | none => simp [hl]
      | some lohi =>
        rcases lohi with ⟨lo, hi⟩
        simp [hl, trimCol]
    exact heq ▸ List.mem_map_of_mem g hmem
  · intro nm vs lo hi hmem hlook hle
    constructor
    · have : g (nm, Col.num vs) = (nm, Col.num (vs.map (trim (some lo) (some hi)))) := by
        rw [hg]
        simp only [hlook]
        rfl
      exact this ▸ List.mem_map_of_mem g hmem
    · intro x _
      refine ⟨trim_none_iff _ _ _, ?_⟩
      intro v hv
      cases x with
      | none => simp [trim] at hv
      | some u => exact trim_some_bounds hle u v hv

/-- Example table for the C7 witness. -/
def XexW : Table :=
  [("a", Col.num [some 3, some 1, none, some 2]),
   ("b", Col.txt [some "u", none, some "w", some "v"])]

/-- Witness for C7 at `XexW` with explicit limits (0, 1): the fitted bounds of
column `a` are its minimum 1 and maximum 3, and the trimmed column is a member
of the transform output. -/
theorem winsorizer_fit_transform_witness :
    ∃ Y, Winsorizer.transform (Winsorizer.fit (WinsorLimits.pair 0 1) XexW) XexW = .ok Y
      ∧ ("a", Col.num ([some 3, some 1, none, some 2].map
          (trim (some 1) (some 3)))) ∈ Y := by
  obtain ⟨Y, hY, _, hnum⟩ := winsorizer_fit_transform (WinsorLimits.pair 0 1) XexW
  refine ⟨Y, hY, ?_⟩
  refine (hnum "a" [some 3, some 1, none, some 2] 1 3 (by simp [XexW]) ?_ (by norm_num)).1
  norm_num [Winsorizer.fit, XexW, resolveLimits, isNumericCol, colQuantile, quantile,
    List.insertionSort, List.orderedInsert, List.lookup, List.getD,
    show Int.toNat 2 = 2 from rfl]

/-- Claim C10: `Winsorizer.transform` never changes the column names, and
every column whose name is absent from the fitted `threshold_dict` appears in
the output with values identical to the input.  (The python code assigns only
into the copy `X_t = X.copy()`; in this pure embedding the input is immutable
by construction.) -/
theorem winsorizer_transform_frame (s : WinsorizerState) (X Y : Table)
    (h : Winsorizer.transform s X = .ok Y) :
    Y.map Prod.fst = X.map Prod.fst
    ∧ ∀ nm c, (nm, c) ∈ X → s.threshold_dict.lookup nm = none → (nm, c) ∈ Y := by
  rw [Winsorizer.transform] at h
  split at h
  · have hY : Y = X.map (fun c =>
        match s.threshold_dict.lookup c.1 with
        | some (lo, hi) => (c.1, trimCol c.2 lo hi)
        | none => c) := (Except.ok.inj h).symm
    subst hY
    constructor
    · rw [List.map_map]
      apply List.map_congr_left
      intro c _
      simp only [Function.comp_apply]
      cases hl : s.threshold_dict.lookup c.1 with
      | none => rfl
      | some lohi =>
        rcases lohi with ⟨lo, hi⟩
        rfl
    · intro nm c hmem hlook
      have : (fun c : String × Col =>
          match s.threshold_dict.lookup c.1 with
          | some (lo, hi) => (c.1, trimCol c.2 lo hi)
          | none => c) (nm, c) = (nm, c) := by
        simp only [hlook]
      exact this ▸ List.mem_map_of_mem _ hmem
  · exact absurd h (by simp)

/-- Witness for C10: a fitted state whose dictionary only binds `a`, applied
to a table with a column `a` and a column `b`; column `b` passes through. -/
theorem winsorizer_transform_frame_witness :
    ("b", Col.txt [some "z"])
      ∈ ([("a", Col.num [some 1]), ("b", Col.txt [some "z"])] : Table) := by
  have h : Winsorizer.transform
      ⟨(0, 1), ["a"], [("a", (some 0, some 1))]⟩
      [("a", Col.num [some 5]), ("b", Col.txt [some "z"])]
      = .ok [("a", Col.num [some 1]), ("b", Col.txt [some "z"])] := by
    rfl
  exact (winsorizer_transform_frame _ _ _ h).2 "b" (Col.txt [some "z"])
    (by simp) (by decide)

/-- A filesystem snapshot: the existing regular files and directories, over
which `load_model` dispatches with `is_file`, `is_dir` and `os.path.isfile`. -/
structure FileSystem where
  files : List String
  dirs : List String

/-- Opaque handle for a deserialized model object. -/
inductive ModelHandle where
  | loaded (path : String)
  | automlLoaded (path : String)
  | bestEstimator (m : ModelHandle)
deriving DecidableEq

/-- `pathlib`-style path joining with `/`. -/
def pathJoin (a b : String) : String := a ++ "/" ++ b

/-- Message of the `ImportError` raised when the checkpoint is a directory and
autogluon is not importable. -/
def autogluonErrorMsg : String :=
  "Specified model appears to be an automl model. Optional dependency autogluon is required for automl."

/-- Message of the `ValueError` raised when the model argument resolves to
none of the three storage conventions. -/
def modelArgErrorMsg : String :=
  "The 'model' argument should be a path or a recognized model name"

/-- Embedding of `load_model`.  `joblib.load` / `TabularPredictor.load` become
opaque handles.  `make_dir` is modelled from the spec ("create the expected
output subdirectory as a side effect"; `helpers.utils` is not in the source
snapshot): the directories created are returned alongside the result.  If
`kind = "tuned"` the loaded object's `best_estimator_` attribute is unwrapped
before returning. -/
def load_model (fs : FileSystem) (autogluonAvailable : Bool) (model : String)
    (out_path : String) (kind : String) :
    Except String (String × ModelHandle × List String) :=
  let subdir := kind ++ "_models"
  let full_path := pathJoin (pathJoin (pathJoin out_path subdir) model) "model"
  let step1 : Except String (String × ModelHandle × List String) :=
    if full_path ∈ fs.files then .ok (model, .loaded full_path, [])
    else if full_path ∈ fs.dirs then
      if autogluonAvailable then .ok (model, .automlLoaded full_path, [])
      else .error autogluonErrorMsg
    else if model ∈ fs.files then
      .ok ((model.splitOn "/").getLastD model, .loaded model,
        [pathJoin (pathJoin out_path subdir) ((model.splitOn "/").getLastD model)])
    else .error modelArgErrorMsg
  match step1 with
  | .ok (nm, m, made) =>
    .ok (nm, if kind = "tuned" then .bestEstimator m else m, made)
  | .error e => .error e

/-- Claim C9: when the conventional `<out_path>/<kind>_models/<model>/model`
location is neither a file nor a directory, `load_model` loads `model` itself
when it is an existing file, returning its basename as the model name after
creating the expected output subdirectory; and raises the configuration
`ValueError` when `model` is no existing file either. -/
theorem load_model_file_path_fallback (fs : FileSystem) (ag : Bool)
    (model out_path kind : String)
    (h1 : pathJoin (pathJoin (pathJoin out_path (kind ++ "_models")) model) "model"
      ∉ fs.files)
    (h2 : pathJoin (pathJoin (pathJoin out_path (kind ++ "_models")) model) "model"
      ∉ fs.dirs) :
    (model ∈ fs.files →
      load_model fs ag model out_path kind
        = .ok ((model.splitOn "/").getLastD model,
            (if kind = "tuned" then ModelHandle.bestEstimator (.loaded model)
             else .loaded model),
            [pathJoin (pathJoin out_path (kind ++ "_models"))
              ((model.splitOn "/").getLastD model)]))
    ∧ (model ∉ fs.files →
        load_model fs ag model out_path kind = .error modelArgErrorMsg) := by
  constructor
  · intro hm
    simp only [load_model, if_neg h1, if_neg h2, if_pos hm]
  · intro hm
    simp only [load_model, if_neg h1, if_neg h2, if_neg hm]

/-- Witness for C9: a file `m.pkl` on disk, loaded under kind `tuned`. -/
theorem load_model_file_path_fallback_witness :
    load_model ⟨["m.pkl"], []⟩ false "m.pkl" "out" "tuned"
      = .ok ((("m.pkl".splitOn "/").getLastD "m.pkl"),
          (if "tuned" = "tuned" then ModelHandle.bestEstimator (.loaded "m.pkl")
           else .loaded "m.pkl"),
          [pathJoin (pathJoin "out" ("tuned" ++ "_models"))
            (("m.pkl".splitOn "/").getLastD "m.pkl")]) :=
  (load_model_file_path_fallback ⟨["m.pkl"], []⟩ false "m.pkl" "out" "tuned"
    (by decide) (by decide)).1 (by decide)

end MlUtils
